import Mathlib

/-!
Verification development for the UTRI/TRVI road-network analysis pipeline.

The definitions below are a shallow embedding of the core computations of
`dc_combine_analysis.py` and `DC_TRVI_Spatial_Analysis.py`: the Gini
coefficient helper, the per-tract clipping / component-reduction loop, the
independently guarded metric computations, the entropy weight method, the
TRVI index construction, the complete-case row filter, and the per-indicator
Moran's I dispatch.  Machine floats are modelled by exact rationals or reals.
-/

namespace UTRI


/-! ### GiniCalculator (`gini_coefficient` in `dc_combine_analysis.py`) -/

/-- Rank-weighted numerator of the Gini formula: the element at 0-based
position `i` has 1-based rank `i + 1` and coefficient `2*(i+1) - n - 1`,
matching `np.sum((2 * index - n - 1) * x)` with `index = np.arange(1, n+1)`. -/
def giniNum (n : ℚ) : ℕ → List ℚ → ℚ
  | _, [] => 0
  | i, v :: t => (2 * ((i : ℚ) + 1) - n - 1) * v + giniNum n (i + 1) t

/-- Function `gini_coefficient(x)` from `dc_combine_analysis.py`.  `np.amin` raises on
an empty array, so the empty list maps to `none`.  Otherwise: if the minimum
is negative, shift every value up by the minimum; return `0` if the sum is
`0`; else sort ascending and return the rank-weighted sum divided by
`n * sum`. -/
def gini_coefficient (x : List ℚ) : Option ℚ :=
  match x with
  | [] => none
  | a :: t =>
    let mn := t.foldl min a
    let x1 := if mn < 0 then (a :: t).map (fun v => v - mn) else a :: t
    if x1.sum = 0 then some 0
    else
      let xs := x1.mergeSort (fun u v => u ≤ v)
      some (giniNum ((xs.length : ℕ) : ℚ) 0 xs / ((xs.length : ℚ) * xs.sum))

/-! ### GeometryOps: point-in-polygon membership used by the clipping step

The node-selection line `nodes_gdf[nodes_gdf.within(tract_polygon)]` delegates
to the geometry library's `within` predicate.  Modelled from the spec: for a
point, `within` a polygon holds exactly when the point lies in the polygon's
*interior*, i.e. it is inside by the ray-casting parity test and not on the
boundary; boundary points are never `within`. -/

/-- A 2-D point with exact rational coordinates. -/
abbrev Point := ℚ × ℚ

/-- A polygon boundary: an ordered ring of coordinates. -/
abbrev Polygon := List Point

/-- The boundary segments of a polygon ring, including the closing segment. -/
def polyEdges (poly : Polygon) : List (Point × Point) :=
  poly.zip (poly.rotate 1)

/-- Point `p` lies on the closed segment from `a` to `b`. -/
def OnSegment (p a b : Point) : Prop :=
  (b.1 - a.1) * (p.2 - a.2) - (b.2 - a.2) * (p.1 - a.1) = 0
  ∧ min a.1 b.1 ≤ p.1 ∧ p.1 ≤ max a.1 b.1
  ∧ min a.2 b.2 ≤ p.2 ∧ p.2 ≤ max a.2 b.2

instance (p a b : Point) : Decidable (OnSegment p a b) := by
  unfold OnSegment; infer_instance

/-- Point `p` lies on the polygon's boundary ring. -/
def OnBoundary (p : Point) (poly : Polygon) : Prop :=
  ∃ e ∈ polyEdges poly, OnSegment p e.1 e.2

instance (p : Point) (poly : Polygon) : Decidable (OnBoundary p poly) := by
  unfold OnBoundary; infer_instance

/-- One boundary segment crosses the horizontal ray from `p` to the right
(standard even-odd rule). -/
def edgeCrossesRay (p : Point) (e : Point × Point) : Bool :=
  (decide (p.2 < e.1.2) != decide (p.2 < e.2.2))
    && decide (p.1 < (e.2.1 - e.1.1) * (p.2 - e.1.2) / (e.2.2 - e.1.2) + e.1.1)

/-- Even-odd parity of ray crossings. -/
def raycastOdd (p : Point) (poly : Polygon) : Bool :=
  (polyEdges poly).countP (edgeCrossesRay p) % 2 == 1

/-- The geometry library's `within` test for a point and a polygon: strict
interior membership.  A point on the boundary is never `within`. -/
def pointWithin (p : Point) (poly : Polygon) : Bool :=
  raycastOdd p poly && !(decide (OnBoundary p poly))

/-! ### GraphStore and RegionClipper (`dc_combine_analysis.py`, tract loop) -/

/-- A street-graph node: opaque identifier plus projected coordinates. -/
structure Node where
  nid : ℕ
  px : ℚ
  py : ℚ
deriving DecidableEq

/-- A directed street edge between node identifiers. -/
structure Edge where
  src : ℕ
  tgt : ℕ
deriving DecidableEq

/-- The citywide street graph: nodes in a fixed iteration order, directed
edges.  Parallel edges are permitted. -/
structure Graph where
  nodes : List Node
  edges : List Edge

/-- Selection `nodes_gdf[nodes_gdf.within(tract_polygon)]`: the nodes whose coordinate
is within the tract polygon, in graph iteration order. -/
def selectedNodes (g : Graph) (poly : Polygon) : List Node :=
  g.nodes.filter (fun v => pointWithin (v.px, v.py) poly)

/-- The identifiers of the selected nodes. -/
def selectedIds (g : Graph) (poly : Polygon) : List ℕ :=
  (selectedNodes g poly).map Node.nid

/-- Induced-subgraph edge set: the edges whose both endpoints are selected
(`G.subgraph(nodes_within_tract.index)`). -/
def inducedEdges (es : List Edge) (sel : List ℕ) : List Edge :=
  es.filter (fun e => decide (e.src ∈ sel ∧ e.tgt ∈ sel))

/-- Undirected adjacency over an edge list: some edge joins `u` and `v` in
either direction (weak connectivity ignores direction). -/
def adjacentB (es : List Edge) (u v : ℕ) : Bool :=
  es.any (fun e => decide ((e.src = u ∧ e.tgt = v) ∨ (e.src = v ∧ e.tgt = u)))

/-- Propositional form of undirected adjacency. -/
def Adj (es : List Edge) (u v : ℕ) : Prop :=
  adjacentB es u v = true

instance (es : List Edge) (u v : ℕ) : Decidable (Adj es u v) := by
  unfold Adj; infer_instance

/-- Undirected reachability: the reflexive-transitive closure of adjacency. -/
def Reach (es : List Edge) : ℕ → ℕ → Prop :=
  Relation.ReflTransGen (Adj es)

/-- One step of the component search: every node of `univ` that is already in
`cur` or adjacent to a node of `cur`. -/
def expand (es : List Edge) (univ cur : List ℕ) : List ℕ :=
  univ.filter (fun v => decide (v ∈ cur ∨ ∃ u ∈ cur, Adj es u v))

/-- Iterated expansion. -/
def iterExpand (es : List Edge) (univ : List ℕ) : ℕ → List ℕ → List ℕ
  | 0, cur => cur
  | n + 1, cur => iterExpand es univ n (expand es univ cur)

/-- The weakly-connected component of `u` in the subgraph with node list
`univ` and edge list `es`: the fixpoint of expansion, reached after at most
`univ.length` rounds. -/
def componentOf (es : List Edge) (univ : List ℕ) (u : ℕ) : List ℕ :=
  iterExpand es univ univ.length (univ.filter (fun v => decide (v = u)))

/-- Model of `nx.weakly_connected_components`: enumerate components in the order their
first node appears in the node iteration order. -/
def wccAux (es : List Edge) (univ : List ℕ) : List ℕ → List ℕ → List (List ℕ)
  | [], _ => []
  | v :: rest, seen =>
    if v ∈ seen then wccAux es univ rest seen
    else componentOf es univ v :: wccAux es univ rest (seen ++ componentOf es univ v)

/-- The list of weakly-connected components in first-discovered order. -/
def wccList (es : List Edge) (univ : List ℕ) : List (List ℕ) :=
  wccAux es univ univ []

/-- Python's `max(components, key=len)`: the first component of maximal
length. -/
def maxByLen : List (List ℕ) → List ℕ
  | [] => []
  | c :: cs =>
    let r := maxByLen cs
    if c.length < r.length then r else c

/-- Status of a clipped per-region subgraph. -/
inductive ClipStatus
  | insufficientNodes
  | notViable
  | ok
deriving DecidableEq

/-- Result of clipping: status plus the retained node ids and edges. -/
structure ClipResult where
  status : ClipStatus
  nodes : List ℕ
  edges : List Edge
deriving DecidableEq

/-- The components `nx.weakly_connected_components` of the induced per-region subgraph, in
first-discovered order. -/
def regionComponents (g : Graph) (poly : Polygon) : List (List ℕ) :=
  wccList (inducedEdges g.edges (selectedIds g poly)) (selectedIds g poly)

/-- The node set retained after component reduction:
`subgraph.subgraph(largest_cc_nodes)` node list, in graph iteration order. -/
def clipReducedNodes (g : Graph) (poly : Polygon) : List ℕ :=
  (selectedIds g poly).filter
    (fun v => decide (v ∈ maxByLen (regionComponents g poly)))

/-- The edge set retained after component reduction. -/
def clipReducedEdges (g : Graph) (poly : Polygon) : List Edge :=
  inducedEdges (inducedEdges g.edges (selectedIds g poly))
    (maxByLen (regionComponents g poly))

/-- The clipping and component-reduction steps of the tract loop in
`dc_combine_analysis.py`: select nodes within the polygon; fewer than 3 means
`insufficient_nodes`; otherwise induce the subgraph, keep the largest
weakly-connected component (guarded by `number_of_nodes() > 0` as in the
source), and report `not_viable` when fewer than 3 nodes or zero edges
remain, else `ok`. -/
def clip (g : Graph) (poly : Polygon) : ClipResult :=
  if (selectedIds g poly).length < 3 then ⟨ClipStatus.insufficientNodes, [], []⟩
  else
    let reduced :=
      if 0 < (selectedIds g poly).length then
        (clipReducedNodes g poly, clipReducedEdges g poly)
      else (selectedIds g poly, inducedEdges g.edges (selectedIds g poly))
    if reduced.1.length < 3 ∨ reduced.2.length = 0 then
      ⟨ClipStatus.notViable, reduced.1, reduced.2⟩
    else ⟨ClipStatus.ok, reduced.1, reduced.2⟩

/-! ### MetricsEngine (`dc_combine_analysis.py`, the four guarded metrics)

The four metric computations call library graph algorithms on the clipped
subgraph.  Those algorithms are external to this repository; each is modelled
as an opaque function returning `none` when the library call raises (the
`except` arm of the corresponding `try`).  The fourth metric feeds the edge
betweenness values through the repository's own `gini_coefficient`. -/

/-- Per-region metric vector; each field independently nullable. -/
structure MetricVector where
  global_permeability : Option ℚ
  avg_clustering_coeff : Option ℚ
  degree_assortativity : Option ℚ
  gini_edge_betweenness : Option ℚ
deriving DecidableEq

/-- The library metric computations, parameters of the embedding: each takes
the subgraph (node ids and edges) and returns `none` exactly when the call
raises. -/
structure MetricFns where
  geff : List ℕ → List Edge → Option ℚ
  clus : List ℕ → List Edge → Option ℚ
  assort : List ℕ → List Edge → Option ℚ
  ebc : List ℕ → List Edge → Option (List ℚ)

/-- The metric block of the tract loop: four independent `try/except` guards,
each writing `None` to its own field on failure and never a numeric default.
The Gini metric applies `gini_coefficient` to the betweenness values, inside
the same guard. -/
def computeMetrics (fns : MetricFns) (ns : List ℕ) (es : List Edge) : MetricVector :=
  { global_permeability := fns.geff ns es
    avg_clustering_coeff := fns.clus ns es
    degree_assortativity := fns.assort ns es
    gini_edge_betweenness := (fns.ebc ns es).bind gini_coefficient }

/-- One row of the results list: either an error row (the two `continue`
branches) or a metric row. -/
inductive TractResult
  | errRow (geoid : ℕ) (msg : String)
  | metricRow (geoid : ℕ) (mv : MetricVector)
deriving DecidableEq

/-- One iteration of the tract loop: clip, check viability, and only in the
`ok` case compute metric values. -/
def processTract (fns : MetricFns) (g : Graph) (geoid : ℕ) (poly : Polygon) :
    TractResult :=
  let res := clip g poly
  match res.status with
  | ClipStatus.insufficientNodes => TractResult.errRow geoid "Not enough nodes"
  | ClipStatus.notViable => TractResult.errRow geoid "Subgraph not viable"
  | ClipStatus.ok => TractResult.metricRow geoid (computeMetrics fns res.nodes res.edges)

/-- A small fixture: one node sitting exactly on the corner of a square
region. -/
def nodeOnCorner : Node := ⟨7, 0, 0⟩

/-- A square region polygon with corner `(0, 0)`. -/
def squarePoly : Polygon := [(0, 0), (10, 0), (10, 10), (0, 10)]

/-- A metric-function fixture in which only the assortativity call fails. -/
def fnsAssortFails : MetricFns :=
  ⟨fun _ _ => some 1, fun _ _ => some 0, fun _ _ => none, fun _ _ => some [1, 2]⟩

/-- A fixture graph: two disjoint directed triangles, all nodes interior to
`squarePoly`. -/
def twoTriangleGraph : Graph :=
  ⟨[⟨1, 1, 1⟩, ⟨2, 2, 1⟩, ⟨3, 1, 2⟩, ⟨4, 5, 5⟩, ⟨5, 6, 5⟩, ⟨6, 5, 6⟩],
   [⟨1, 2⟩, ⟨2, 3⟩, ⟨3, 1⟩, ⟨4, 5⟩, ⟨5, 6⟩, ⟨6, 4⟩]⟩

/-- A region polygon far away from every node of the fixture graph. -/
def farPoly : Polygon := [(100, 100), (101, 100), (101, 101), (100, 101)]

/-! ### EntropyWeighting and IndexBuilder (`DC_TRVI_Spatial_Analysis.py`)

Floats are modelled by exact reals.  `np.log` is `Real.log`; the code's
`replace([inf, -inf], 0)` convention for `log 0` coincides with
`Real.log 0 = 0`.  `MinMaxScaler` and `StandardScaler` handle a zero
range/zero standard deviation by using scale `1` (sklearn
`_handle_zeros_in_scale`), modelled by the `if` below. -/

/-- Minimum of a column (`fit` of the scaler); junk value `0` on `[]`. -/
noncomputable def listMin : List ℝ → ℝ
  | [] => 0
  | a :: t => t.foldl min a

/-- Maximum of a column; junk value `0` on `[]`. -/
noncomputable def listMax : List ℝ → ℝ
  | [] => 0
  | a :: t => t.foldl max a

/-- Model of `MinMaxScaler.fit_transform` on one column: `(x - min) / (max - min)`,
with a zero range replaced by scale `1` (constant columns map to all `0`). -/
noncomputable def minmaxCol (xs : List ℝ) : List ℝ :=
  xs.map (fun x => (x - listMin xs)
    / (if listMax xs - listMin xs = 0 then 1 else listMax xs - listMin xs))

/-- Line 70: the Shannon entropy of one processed column treated as a
distribution, scaled by `k = 1 / log m`:
`-k * Σ (x/Σx) * log (x/Σx)`. -/
noncomputable def colEntropy (m : ℕ) (xs : List ℝ) : ℝ :=
  -(1 / Real.log m) * (xs.map (fun x => x / xs.sum * Real.log (x / xs.sum))).sum

/-- One region's four non-null metric values (a row of `df_processed`'s
input). -/
structure MetricRow where
  gp : ℝ
  cc : ℝ
  da : ℝ
  gb : ℝ

/-- Line 59: permeability is a positive indicator — plain normalization. -/
noncomputable def processedGp (rows : List MetricRow) : List ℝ :=
  minmaxCol (rows.map MetricRow.gp)

/-- Line 61: clustering is a negative indicator — `1 - normalized`. -/
noncomputable def processedCc (rows : List MetricRow) : List ℝ :=
  (minmaxCol (rows.map MetricRow.cc)).map (fun x => 1 - x)

/-- Line 63: assortativity is a negative indicator. -/
noncomputable def processedDa (rows : List MetricRow) : List ℝ :=
  (minmaxCol (rows.map MetricRow.da)).map (fun x => 1 - x)

/-- Line 65: betweenness Gini is a negative indicator. -/
noncomputable def processedGb (rows : List MetricRow) : List ℝ :=
  (minmaxCol (rows.map MetricRow.gb)).map (fun x => 1 - x)

/-- Line 71: degree of diversification `d = 1 - entropy`, per column. -/
noncomputable def ewmD (rows : List MetricRow) : ℝ × ℝ × ℝ × ℝ :=
  (1 - colEntropy rows.length (processedGp rows),
   1 - colEntropy rows.length (processedCc rows),
   1 - colEntropy rows.length (processedDa rows),
   1 - colEntropy rows.length (processedGb rows))

/-- Line 72: `weights_ewm = d / d.sum()`. -/
noncomputable def entropyWeights (rows : List MetricRow) : ℝ × ℝ × ℝ × ℝ :=
  (((ewmD rows).1) / ((ewmD rows).1 + (ewmD rows).2.1 + (ewmD rows).2.2.1 + (ewmD rows).2.2.2),
   ((ewmD rows).2.1) / ((ewmD rows).1 + (ewmD rows).2.1 + (ewmD rows).2.2.1 + (ewmD rows).2.2.2),
   ((ewmD rows).2.2.1) / ((ewmD rows).1 + (ewmD rows).2.1 + (ewmD rows).2.2.1 + (ewmD rows).2.2.2),
   ((ewmD rows).2.2.2) / ((ewmD rows).1 + (ewmD rows).2.1 + (ewmD rows).2.2.1 + (ewmD rows).2.2.2))

/-- Column mean. -/
noncomputable def meanL (xs : List ℝ) : ℝ := xs.sum / xs.length

/-- The `StandardScaler` population standard deviation. -/
noncomputable def popStd (xs : List ℝ) : ℝ :=
  Real.sqrt ((xs.map (fun x => (x - meanL xs) ^ 2)).sum / xs.length)

/-- The `StandardScaler` scale: a zero standard deviation is replaced by `1`. -/
noncomputable def zscale (xs : List ℝ) : ℝ :=
  if popStd xs = 0 then 1 else popStd xs

/-- Z-score of `x` against column `xs`. -/
noncomputable def zscore (xs : List ℝ) (x : ℝ) : ℝ :=
  (x - meanL xs) / zscale xs

/-- Lines 93-102: `TRVI = -MHI_Z - UTRI_physical_Z` for one region row
`(income, physical sub-index)`, standardized against the full region set. -/
noncomputable def trviOf (rows : List (ℝ × ℝ)) (r : ℝ × ℝ) : ℝ :=
  -zscore (rows.map Prod.fst) r.1 - zscore (rows.map Prod.snd) r.2

/-- The TRVI column over the region set. -/
noncomputable def trviList (rows : List (ℝ × ℝ)) : List ℝ :=
  rows.map (trviOf rows)

/-! ### Complete-case filtering and the TRVI table (`DC_TRVI_Spatial_Analysis.py`)

Line 20 drops every row with a null in any of the four metrics or income;
all downstream computations (entropy weighting, index building, spatial
autocorrelation) read only the cleaned table, and TRVI values are joined back
onto exactly the cleaned rows (line 105). -/

/-- A row of `dc_utri_analysis.csv`: GEOID, income and the four metrics, each
nullable. -/
structure UtriRow where
  geoid : ℕ
  income : Option ℝ
  gp : Option ℝ
  cc : Option ℝ
  da : Option ℝ
  gb : Option ℝ

/-- Model of `df.dropna(subset=[the four metrics, income])` (line 20). -/
def dropnaClean (rows : List UtriRow) : List UtriRow :=
  rows.filter (fun r =>
    r.gp.isSome && r.cc.isSome && r.da.isSome && r.gb.isSome && r.income.isSome)

/-- The metric table handed to the entropy weighting: one row per clean row. -/
noncomputable def analysisMetricRows (rows : List UtriRow) : List MetricRow :=
  (dropnaClean rows).map
    (fun r => ⟨r.gp.getD 0, r.cc.getD 0, r.da.getD 0, r.gb.getD 0⟩)

/-- Lines 82-87: the entropy-weighted physical sub-index per clean row. -/
noncomputable def physIndexList (rows : List UtriRow) : List ℝ :=
  (List.range (analysisMetricRows rows).length).map (fun i =>
    (entropyWeights (analysisMetricRows rows)).1
        * ((processedGp (analysisMetricRows rows)).getD i 0)
      + (entropyWeights (analysisMetricRows rows)).2.1
        * ((processedCc (analysisMetricRows rows)).getD i 0)
      + (entropyWeights (analysisMetricRows rows)).2.2.1
        * ((processedDa (analysisMetricRows rows)).getD i 0)
      + (entropyWeights (analysisMetricRows rows)).2.2.2
        * ((processedGb (analysisMetricRows rows)).getD i 0))

/-- The income column of the cleaned table. -/
noncomputable def incomesClean (rows : List UtriRow) : List ℝ :=
  (dropnaClean rows).map (fun r => r.income.getD 0)

/-- The `(income, physical sub-index)` rows entering the index builder. -/
noncomputable def trviPairs (rows : List UtriRow) : List (ℝ × ℝ) :=
  (incomesClean rows).zip (physIndexList rows)

/-- Line 105, `df_final = df_clean.join(df_scaled[['TRVI']])`: TRVI keyed by
GEOID, exactly one entry per clean row. -/
noncomputable def trviTable (rows : List UtriRow) : List (ℕ × ℝ) :=
  ((dropnaClean rows).map UtriRow.geoid).zip (trviList (trviPairs rows))

/-- A row has a null among the five columns used by the analysis. -/
def hasNull (r : UtriRow) : Prop :=
  r.gp = none ∨ r.cc = none ∨ r.da = none ∨ r.gb = none ∨ r.income = none

/-! ### SpatialAutocorrelation dispatch (`DC_TRVI_Spatial_Analysis.py` 139-145) -/

/-- Modelled from the spec: Global Moran's I,
`I = (n / S0) * (Σ_i Σ_j w_ij (x_i - x̄)(x_j - x̄)) / (Σ_i (x_i - x̄)²)` —
the esda `Moran` internals are external to this repository.  The randomized
permutation p-value is not modelled (no claim depends on it). -/
noncomputable def moranI (xs : List ℝ) (w : List (List ℝ)) : ℝ :=
  ((xs.length : ℝ) / (w.map List.sum).sum)
    * (((w.zip (xs.map (fun x => x - xs.sum / xs.length))).map (fun p =>
          p.2 * ((p.1.zip (xs.map (fun x => x - xs.sum / xs.length))).map
            (fun q => q.1 * q.2)).sum)).sum
        / ((xs.map (fun x => x - xs.sum / xs.length)).map (fun t => t ^ 2)).sum)

/-- Lines 139-145: per indicator column, the code tests
`gdf_analysis[col].isnull().any()` and, when any region's value is null,
skips Moran's I for that indicator entirely (`continue`); otherwise the
statistic is computed over all regions. -/
noncomputable def moranForColumn (xs : List (Option ℝ)) (w : List (List ℝ)) :
    Option ℝ :=
  if xs.any (fun x => x.isNone) then none
  else some (moranI (xs.map (fun x => x.getD 0)) w)

/-- Modelled from the spec: the claimed exclusion semantics — regions with a
null value for the indicator are removed, the weights matrix is restricted to
the remaining regions (their rows/columns dropped), and the statistic is
still computed over the rest. -/
noncomputable def moranExcludingNulls (xs : List (Option ℝ)) (w : List (List ℝ)) :
    Option ℝ :=
  some (moranI
    (((List.range xs.length).filter (fun i => (xs.getD i none).isSome)).map
      (fun i => (xs.getD i none).getD 0))
    (((List.range xs.length).filter (fun i => (xs.getD i none).isSome)).map
      (fun i =>
        ((List.range xs.length).filter (fun j => (xs.getD j none).isSome)).map
          (fun j => (w.getD i []).getD j 0))))

theorem giniNum_shift (n : ℚ) (t : List ℚ) :
    ∀ i : ℕ, giniNum n (i + 1) t = giniNum (n - 1) i t + t.sum := by
  induction t with
  | nil => intro i; simp [giniNum]
  | cons v t ih =>
    intro i
    simp only [giniNum, List.sum_cons, ih (i + 1)]
    push_cast
    ring

theorem giniNum_nonneg_of_sorted (xs : List ℚ) (hs : xs.Sorted (· ≤ ·)) :
    0 ≤ giniNum (xs.length : ℚ) 0 xs := by
  induction xs with
  | nil => simp [giniNum]
  | cons a t ih =>
    rcases List.sorted_cons.mp hs with ⟨hle, hst⟩
    have hshift : giniNum ((t.length : ℚ) + 1) 1 t = giniNum (t.length : ℚ) 0 t + t.sum := by
      have := giniNum_shift ((t.length : ℚ) + 1) t 0
      simpa using this
    have hsum : (t.length : ℚ) * a ≤ t.sum := by
      have h1 : (t.map (fun _ => a)).sum ≤ (t.map id).sum :=
        List.sum_le_sum (fun v hv => hle v hv)
      simpa [List.map_const, List.sum_replicate, List.map_id, nsmul_eq_mul] using h1
    have h0 : giniNum ((t.length : ℚ) + 1) 0 (a :: t)
        = -(t.length : ℚ) * a + ((t.length : ℚ) + 1) * 0 + giniNum ((t.length : ℚ) + 1) 1 t := by
      simp only [giniNum]
      ring
    have : giniNum ((t.length : ℚ) + 1) 0 (a :: t)
        = -(t.length : ℚ) * a + giniNum (t.length : ℚ) 0 t + t.sum := by
      rw [h0, hshift]; ring
    have hlen : (((a :: t).length : ℕ) : ℚ) = (t.length : ℚ) + 1 := by
      push_cast [List.length_cons]; ring
    rw [hlen, this]
    have := ih hst
    linarith

theorem giniNum_le_of_nonneg (n : ℚ) :
    ∀ (xs : List ℚ) (i : ℕ), (∀ v ∈ xs, 0 ≤ v) →
      giniNum n i xs ≤ (2 * ((i : ℚ) + xs.length) - n - 1) * xs.sum := by
  intro xs
  induction xs with
  | nil => intro i _; simp [giniNum]
  | cons v t ih =>
    intro i hnn
    have hv : 0 ≤ v := hnn v (List.mem_cons_self v t)
    have ht : ∀ w ∈ t, 0 ≤ w := fun w hw => hnn w (List.mem_cons_of_mem v hw)
    have htsum : 0 ≤ t.sum := List.sum_nonneg ht
    have h1 : giniNum n (i + 1) t ≤ (2 * (((i + 1 : ℕ) : ℚ) + t.length) - n - 1) * t.sum :=
      ih (i + 1) ht
    have hcoef : (2 * ((i : ℚ) + 1) - n - 1) ≤ (2 * ((i : ℚ) + (t.length + 1)) - n - 1) := by
      have : (0 : ℚ) ≤ t.length := by positivity
      linarith
    have hc2 : (2 * (((i + 1 : ℕ) : ℚ) + t.length) - n - 1)
        = (2 * ((i : ℚ) + (t.length + 1)) - n - 1) := by push_cast; ring
    calc giniNum n i (v :: t)
        = (2 * ((i : ℚ) + 1) - n - 1) * v + giniNum n (i + 1) t := rfl
      _ ≤ (2 * ((i : ℚ) + (t.length + 1)) - n - 1) * v
            + (2 * ((i : ℚ) + (t.length + 1)) - n - 1) * t.sum := by
          rw [hc2] at h1
          exact add_le_add (mul_le_mul_of_nonneg_right hcoef hv) h1
      _ = (2 * ((i : ℚ) + (v :: t).length) - n - 1) * (v :: t).sum := by
          push_cast [List.length_cons, List.sum_cons]
          ring

theorem foldl_min_nonneg (t : List ℚ) :
    ∀ a : ℚ, 0 ≤ a → (∀ v ∈ t, 0 ≤ v) → 0 ≤ t.foldl min a := by
  induction t with
  | nil => intro a ha _; simpa using ha
  | cons b t ih =>
    intro a ha hv
    have hb : 0 ≤ b := hv b (List.mem_cons_self b t)
    have : 0 ≤ min a b := le_min ha hb
    exact ih (min a b) this (fun v hm => hv v (List.mem_cons_of_mem b hm))

/-- C7, amended: on every non-empty list of non-negative values, the Gini
coefficient is defined and lies in `[0, 1]`. -/
theorem gini_nonneg_inputs_in_unit_interval (x : List ℚ) (hne : x ≠ [])
    (hnn : ∀ v ∈ x, 0 ≤ v) :
    ∃ r, gini_coefficient x = some r ∧ 0 ≤ r ∧ r ≤ 1 := by
  match x, hne with
  | a :: t, _ =>
    have ha : 0 ≤ a := hnn a (List.mem_cons_self a t)
    have ht : ∀ v ∈ t, 0 ≤ v := fun v hv => hnn v (List.mem_cons_of_mem a hv)
    have hmn : 0 ≤ t.foldl min a := foldl_min_nonneg t a ha ht
    have hnotlt : ¬ t.foldl min a < 0 := not_lt.mpr hmn
    by_cases hz : (a :: t).sum = 0
    · refine ⟨0, ?_, le_refl 0, by norm_num⟩
      simp [gini_coefficient, hnotlt, hz]
    · have hsumpos : 0 < (a :: t).sum := by
        rcases lt_or_eq_of_le (List.sum_nonneg hnn) with h | h
        · exact h
        · exact absurd h.symm hz
      set xs := (a :: t).mergeSort (fun u v => u ≤ v) with hxs
      have hperm : xs.Perm (a :: t) := List.mergeSort_perm (a :: t) _
      have hsorted : xs.Sorted (· ≤ ·) := by
        rw [hxs]; exact List.sorted_mergeSort' (a :: t)
      have hsum_eq : xs.sum = (a :: t).sum := hperm.sum_eq
      have hlen_eq : xs.length = (a :: t).length := hperm.length_eq
      have hxs_nn : ∀ v ∈ xs, 0 ≤ v := fun v hv => hnn v (hperm.mem_iff.mp hv)
      have hlenpos : 0 < (xs.length : ℚ) := by
        have : 0 < xs.length := by
          rw [hlen_eq]; simp
        exact_mod_cast this
      have hxsumpos : 0 < xs.sum := by rw [hsum_eq]; exact hsumpos
      have hdenpos : 0 < (xs.length : ℚ) * xs.sum := mul_pos hlenpos hxsumpos
      refine ⟨giniNum ((xs.length : ℕ) : ℚ) 0 xs / ((xs.length : ℚ) * xs.sum), ?_, ?_, ?_⟩
      · simp only [gini_coefficient, hnotlt, if_false, hz, if_neg hz]
      · exact div_nonneg (giniNum_nonneg_of_sorted xs hsorted) hdenpos.le
      · rw [div_le_one hdenpos]
        have hupper := giniNum_le_of_nonneg ((xs.length : ℕ) : ℚ) xs 0 hxs_nn
        have h2 : (2 * ((0 : ℚ) + xs.length) - (xs.length : ℚ) - 1) * xs.sum
            ≤ (xs.length : ℚ) * xs.sum := by
          have hco : (2 * ((0 : ℚ) + xs.length) - (xs.length : ℚ) - 1) ≤ (xs.length : ℚ) := by
            linarith
          exact mul_le_mul_of_nonneg_right hco hxsumpos.le
        calc giniNum ((xs.length : ℕ) : ℚ) 0 xs
            ≤ (2 * ((0 : ℚ) + xs.length) - (xs.length : ℚ) - 1) * xs.sum := by
              simpa using hupper
          _ ≤ (xs.length : ℚ) * xs.sum := h2

/-- C7, counterexample to the claim as stated: on the empty list (vacuously a
list of non-negative values) `gini_coefficient` raises (`np.amin` of an empty
array), modelled as `none`, so no result in `[0, 1]` is returned. -/
theorem gini_claim_fails_on_empty_input :
    ¬ ∃ r, gini_coefficient [] = some r ∧ 0 ≤ r ∧ r ≤ 1 := by
  intro h
  rcases h with ⟨r, hr, _⟩
  simp [gini_coefficient] at hr

/-- C7 witness: the amended theorem applied to the concrete input `[2, 0, 1]`. -/
theorem gini_nonneg_inputs_in_unit_interval_witness :
    ([(2 : ℚ), 0, 1] ≠ []) ∧ ∃ r, gini_coefficient [(2 : ℚ), 0, 1] = some r ∧ 0 ≤ r ∧ r ≤ 1 :=
  ⟨by simp, gini_nonneg_inputs_in_unit_interval [(2 : ℚ), 0, 1] (by simp) (by norm_num)⟩

theorem giniNum_replicate (n c : ℚ) :
    ∀ (k : ℕ) (i : ℕ), giniNum n i (List.replicate k c)
      = c * (k : ℚ) * (2 * (i : ℚ) + (k : ℚ) - n) := by
  intro k
  induction k with
  | zero => intro i; simp [giniNum]
  | succ k ih =>
    intro i
    have : List.replicate (k + 1) c = c :: List.replicate k c := rfl
    rw [this]
    simp only [giniNum, ih (i + 1)]
    push_cast
    ring

theorem foldl_min_const (c : ℚ) : ∀ k : ℕ, (List.replicate k c).foldl min c = c := by
  intro k
  induction k with
  | zero => rfl
  | succ k ih =>
    have : List.replicate (k + 1) c = c :: List.replicate k c := rfl
    rw [this]
    simpa [min_self] using ih

/-- C8: on every non-empty constant list the Gini coefficient is exactly `0`. -/
theorem gini_constant_eq_zero (x : List ℚ) (c : ℚ) (hne : x ≠ [])
    (hc : ∀ v ∈ x, v = c) : gini_coefficient x = some 0 := by
  have hrep : x = List.replicate x.length c := by
    rw [List.eq_replicate_iff]; exact ⟨rfl, hc⟩
  match x, hne with
  | a :: t, _ =>
    have hac : a = c := hc a (List.mem_cons_self a t)
    have hlen : (a :: t).length = t.length + 1 := rfl
    have hrep2 : a :: t = List.replicate (t.length + 1) c := by
      rw [← hlen, ← hrep]
    have hmn : t.foldl min a = c := by
      have ht : t = List.replicate t.length c := by
        rw [List.eq_replicate_iff]
        exact ⟨rfl, fun b hb => hc b (List.mem_cons_of_mem a hb)⟩
      rw [ht, hac]
      exact foldl_min_const c t.length
    by_cases hneg : c < 0
    · -- shifted list is all zeros, sum is zero
      have hmap : ((a :: t).map (fun v => v - c)).sum = 0 := by
        apply List.sum_eq_zero
        intro v hv
        rcases List.mem_map.mp hv with ⟨w, hw, hwv⟩
        have : w = c := hc w hw
        simp [← hwv, this]
      simp only [gini_coefficient, hmn, if_pos hneg]
      rw [if_pos hmap]
    · by_cases hz : (a :: t).sum = 0
      · simp [gini_coefficient, hmn, hneg, hz]
      · -- constant positive list: the sorted list is the list itself and the
        -- rank-weighted numerator vanishes
        have hxs_perm := List.mergeSort_perm (a :: t) (fun u v : ℚ => u ≤ v)
        set xs := (a :: t).mergeSort (fun u v => u ≤ v) with hxs
        have hxs_rep : xs = List.replicate (t.length + 1) c := by
          rw [List.eq_replicate_iff]
          constructor
          · rw [hxs_perm.length_eq, hlen]
          · intro b hb
            exact hc b (hxs_perm.mem_iff.mp hb)
        have hnum : giniNum ((xs.length : ℕ) : ℚ) 0 xs = 0 := by
          rw [hxs_rep]
          have := giniNum_replicate ((List.replicate (t.length + 1) c).length : ℚ) c
            (t.length + 1) 0
          rw [this]
          simp
        simp only [gini_coefficient, hmn, if_neg hneg, hz, if_neg hz]
        rw [hnum]
        simp

/-- C8 witness: the theorem applied to the concrete constant list `[5, 5, 5]`. -/
theorem gini_constant_eq_zero_witness : gini_coefficient [(5 : ℚ), 5, 5] = some 0 :=
  gini_constant_eq_zero [(5 : ℚ), 5, 5] 5 (by simp) (by norm_num)

/-! ### Lemmas about the component search -/

theorem bool_eq_of_iff {a b : Bool} (h : a = true ↔ b = true) : a = b := by
  cases a <;> cases b <;> simp_all

theorem adj_iff (es : List Edge) (u v : ℕ) :
    Adj es u v ↔ ∃ e ∈ es, (e.src = u ∧ e.tgt = v) ∨ (e.src = v ∧ e.tgt = u) := by
  simp [Adj, adjacentB, List.any_eq_true]

theorem adj_symm {es : List Edge} {u v : ℕ} (h : Adj es u v) : Adj es v u := by
  rw [adj_iff] at h ⊢
  rcases h with ⟨e, he, hc⟩
  exact ⟨e, he, hc.symm⟩

theorem reach_symm {es : List Edge} {u v : ℕ} (h : Reach es u v) : Reach es v u :=
  Relation.ReflTransGen.symmetric (fun _ _ hab => adj_symm hab) h

theorem adj_mem_right {es : List Edge} {univ : List ℕ}
    (hes : ∀ e ∈ es, e.src ∈ univ ∧ e.tgt ∈ univ) {u v : ℕ} (h : Adj es u v) :
    v ∈ univ := by
  rw [adj_iff] at h
  rcases h with ⟨e, he, hc | hc⟩
  · exact hc.2 ▸ (hes e he).2
  · exact hc.1 ▸ (hes e he).1

theorem mem_expand_iff (es : List Edge) (univ cur : List ℕ) (v : ℕ) :
    v ∈ expand es univ cur ↔ v ∈ univ ∧ (v ∈ cur ∨ ∃ u ∈ cur, Adj es u v) := by
  simp [expand, List.mem_filter]

theorem expand_subset_univ (es : List Edge) (univ cur : List ℕ) :
    ∀ w ∈ expand es univ cur, w ∈ univ :=
  fun w hw => ((mem_expand_iff es univ cur w).mp hw).1

theorem subset_expand (es : List Edge) (univ cur : List ℕ)
    (h : ∀ w ∈ cur, w ∈ univ) : ∀ w ∈ cur, w ∈ expand es univ cur :=
  fun w hw => (mem_expand_iff es univ cur w).mpr ⟨h w hw, Or.inl hw⟩

theorem iterExpand_succ (es : List Edge) (univ : List ℕ) (n : ℕ) (cur : List ℕ) :
    iterExpand es univ (n + 1) cur = expand es univ (iterExpand es univ n cur) := by
  induction n generalizing cur with
  | zero => rfl
  | succ n ih =>
    show iterExpand es univ (n + 1) (expand es univ cur)
      = expand es univ (iterExpand es univ (n + 1) cur)
    rw [ih (expand es univ cur)]
    rfl

theorem iterExpand_subset_univ (es : List Edge) (univ : List ℕ) :
    ∀ (n : ℕ) (cur : List ℕ), (∀ w ∈ cur, w ∈ univ) →
      ∀ w ∈ iterExpand es univ n cur, w ∈ univ := by
  intro n
  induction n with
  | zero => intro cur h w hw; exact h w hw
  | succ n ih =>
    intro cur _ w hw
    exact ih (expand es univ cur) (expand_subset_univ es univ cur) w hw

theorem subset_iterExpand (es : List Edge) (univ : List ℕ) :
    ∀ (n : ℕ) (cur : List ℕ), (∀ w ∈ cur, w ∈ univ) →
      ∀ w ∈ cur, w ∈ iterExpand es univ n cur := by
  intro n
  induction n with
  | zero => intro cur _ w hw; exact hw
  | succ n ih =>
    intro cur h w hw
    exact ih (expand es univ cur) (expand_subset_univ es univ cur) w
      (subset_expand es univ cur h w hw)

theorem iterExpand_of_fix (es : List Edge) (univ : List ℕ) {cur : List ℕ}
    (hfix : expand es univ cur = cur) : ∀ n, iterExpand es univ n cur = cur := by
  intro n
  induction n with
  | zero => rfl
  | succ n ih =>
    rw [iterExpand_succ, ih, hfix]

theorem exists_filter_iterExpand (es : List Edge) (univ : List ℕ) :
    ∀ (n : ℕ) (p : ℕ → Bool), ∃ q : ℕ → Bool,
      iterExpand es univ n (univ.filter p) = univ.filter q := by
  intro n
  induction n with
  | zero => intro p; exact ⟨p, rfl⟩
  | succ n ih =>
    intro p
    obtain ⟨q, hq⟩ := ih (fun v =>
      decide (v ∈ univ.filter p ∨ ∃ u ∈ univ.filter p, Adj es u v))
    exact ⟨q, hq⟩

theorem length_lt_of_expand_ne (es : List Edge) (univ : List ℕ) (hnd : univ.Nodup)
    (p : ℕ → Bool) (hne : expand es univ (univ.filter p) ≠ univ.filter p) :
    (univ.filter p).length < (expand es univ (univ.filter p)).length := by
  set cur := univ.filter p with hcur
  set ex := expand es univ cur with hex
  have hsub : ∀ w ∈ cur, w ∈ ex :=
    subset_expand es univ cur (fun w hw => (List.mem_filter.mp hw).1)
  have hndc : cur.Nodup := hnd.filter p
  have hndx : ex.Nodup := hnd.filter _
  have hfs : cur.toFinset ⊆ ex.toFinset := by
    intro x hx
    rw [List.mem_toFinset] at hx ⊢
    exact hsub x hx
  have hfne : cur.toFinset ≠ ex.toFinset := by
    intro heq
    apply hne
    have hmem : ∀ x, x ∈ ex ↔ x ∈ cur := by
      intro x
      rw [← List.mem_toFinset, ← heq, List.mem_toFinset]
    have : univ.filter (fun v => decide (v ∈ cur ∨ ∃ u ∈ cur, Adj es u v))
        = univ.filter p := by
      apply List.filter_congr
      intro x hxu
      apply bool_eq_of_iff
      constructor
      · intro hx
        have : x ∈ ex := List.mem_filter.mpr ⟨hxu, hx⟩
        exact (List.mem_filter.mp ((hmem x).mp this)).2
      · intro hx
        have : x ∈ cur := List.mem_filter.mpr ⟨hxu, hx⟩
        have hxex : x ∈ ex := hsub x this
        exact (List.mem_filter.mp hxex).2
    exact this
  have hss : cur.toFinset ⊂ ex.toFinset := ssubset_of_subset_of_ne hfs hfne
  have hcard := Finset.card_lt_card hss
  rwa [List.toFinset_card_of_nodup hndc, List.toFinset_card_of_nodup hndx] at hcard

theorem expand_univ_eq (es : List Edge) (univ : List ℕ) :
    expand es univ univ = univ := by
  apply List.filter_eq_self.mpr
  intro v hv
  exact decide_eq_true (Or.inl hv)

theorem expand_iterExpand_fix (es : List Edge) (univ : List ℕ) (hnd : univ.Nodup)
    (p : ℕ → Bool) :
    expand es univ (iterExpand es univ univ.length (univ.filter p))
      = iterExpand es univ univ.length (univ.filter p) := by
  by_cases hex : ∃ k, k < univ.length ∧
      expand es univ (iterExpand es univ k (univ.filter p))
        = iterExpand es univ k (univ.filter p)
  · obtain ⟨k, hk, hfixk⟩ := hex
    have hprop : ∀ j, iterExpand es univ (k + j) (univ.filter p)
        = iterExpand es univ k (univ.filter p) := by
      intro j
      induction j with
      | zero => rfl
      | succ j ih =>
        have : k + (j + 1) = (k + j) + 1 := rfl
        rw [this, iterExpand_succ, ih, hfixk]
    have hN : iterExpand es univ univ.length (univ.filter p)
        = iterExpand es univ k (univ.filter p) := by
      have := hprop (univ.length - k)
      rwa [Nat.add_sub_cancel' hk.le] at this
    rw [hN, hfixk]
  · push_neg at hex
    have hgrow : ∀ k, k < univ.length →
        (iterExpand es univ k (univ.filter p)).length
          < (iterExpand es univ (k + 1) (univ.filter p)).length := by
      intro k hk
      obtain ⟨q, hq⟩ := exists_filter_iterExpand es univ k p
      rw [iterExpand_succ, hq]
      exact length_lt_of_expand_ne es univ hnd q (by rw [← hq]; exact hex k hk)
    have hmono : ∀ k, k ≤ univ.length →
        k ≤ (iterExpand es univ k (univ.filter p)).length := by
      intro k
      induction k with
      | zero => intro _; exact Nat.zero_le _
      | succ k ih =>
        intro hk1
        have hk : k < univ.length := Nat.lt_of_succ_le hk1
        have := hgrow k hk
        have h2 := ih (Nat.le_of_lt hk)
        omega
    have hle : (iterExpand es univ univ.length (univ.filter p)).length ≤ univ.length := by
      obtain ⟨q, hq⟩ := exists_filter_iterExpand es univ univ.length p
      rw [hq]
      exact List.length_filter_le q univ
    have hEq : (iterExpand es univ univ.length (univ.filter p)).length = univ.length :=
      Nat.le_antisymm hle (hmono univ.length (Nat.le_refl _))
    obtain ⟨q, hq⟩ := exists_filter_iterExpand es univ univ.length p
    have : univ.filter q = univ := by
      apply List.filter_eq_self.mpr
      apply List.filter_length_eq_length.mp
      rw [← hq]
      exact hEq
    rw [hq, this, expand_univ_eq]

theorem iterExpand_sound (es : List Edge) (univ : List ℕ) :
    ∀ (n : ℕ) (cur : List ℕ), ∀ v ∈ iterExpand es univ n cur,
      ∃ w ∈ cur, Reach es w v := by
  intro n
  induction n with
  | zero => intro cur v hv; exact ⟨v, hv, Relation.ReflTransGen.refl⟩
  | succ n ih =>
    intro cur v hv
    obtain ⟨w, hw, hreach⟩ := ih (expand es univ cur) v hv
    rcases ((mem_expand_iff es univ cur w).mp hw).2 with hwc | ⟨u, hu, hadj⟩
    · exact ⟨w, hwc, hreach⟩
    · exact ⟨u, hu, Relation.ReflTransGen.head hadj hreach⟩

theorem mem_componentOf_self (es : List Edge) (univ : List ℕ) {u : ℕ}
    (hu : u ∈ univ) : u ∈ componentOf es univ u := by
  have hu0 : u ∈ univ.filter (fun v => decide (v = u)) :=
    List.mem_filter.mpr ⟨hu, decide_eq_true rfl⟩
  exact subset_iterExpand es univ univ.length (univ.filter (fun v => decide (v = u)))
    (fun w hw => (List.mem_filter.mp hw).1) u hu0

theorem mem_componentOf_of_reach (es : List Edge) (univ : List ℕ) (hnd : univ.Nodup)
    (hes : ∀ e ∈ es, e.src ∈ univ ∧ e.tgt ∈ univ) {u : ℕ} (hu : u ∈ univ) :
    ∀ {v : ℕ}, Reach es u v → v ∈ componentOf es univ u := by
  have hfix : expand es univ (componentOf es univ u) = componentOf es univ u :=
    expand_iterExpand_fix es univ hnd (fun v => decide (v = u))
  intro v hv
  induction hv with
  | refl => exact mem_componentOf_self es univ hu
  | tail _ hbc ih =>
    rename_i b c hab
    have hcuniv : c ∈ univ := adj_mem_right hes hbc
    have : c ∈ expand es univ (componentOf es univ u) :=
      (mem_expand_iff es univ _ c).mpr ⟨hcuniv, Or.inr ⟨b, ih, hbc⟩⟩
    rwa [hfix] at this

theorem mem_componentOf_iff (es : List Edge) (univ : List ℕ) (hnd : univ.Nodup)
    (hes : ∀ e ∈ es, e.src ∈ univ ∧ e.tgt ∈ univ) {u : ℕ} (hu : u ∈ univ) (v : ℕ) :
    v ∈ componentOf es univ u ↔ v ∈ univ ∧ Reach es u v := by
  constructor
  · intro hv
    refine ⟨iterExpand_subset_univ es univ univ.length _
      (fun w hw => (List.mem_filter.mp hw).1) v hv, ?_⟩
    obtain ⟨w, hw, hreach⟩ := iterExpand_sound es univ univ.length _ v hv
    have : w = u := of_decide_eq_true (List.mem_filter.mp hw).2
    rwa [this] at hreach
  · rintro ⟨_, hreach⟩
    exact mem_componentOf_of_reach es univ hnd hes hu hreach

theorem componentOf_is_filter (es : List Edge) (univ : List ℕ) (u : ℕ) :
    ∃ q : ℕ → Bool, componentOf es univ u = univ.filter q :=
  exists_filter_iterExpand es univ univ.length (fun v => decide (v = u))

theorem wccAux_mem (es : List Edge) (univ : List ℕ) :
    ∀ (rem seen : List ℕ) (c : List ℕ), c ∈ wccAux es univ rem seen →
      ∃ v ∈ rem, c = componentOf es univ v := by
  intro rem
  induction rem with
  | nil => intro seen c hc; simp [wccAux] at hc
  | cons v rest ih =>
    intro seen c hc
    by_cases hv : v ∈ seen
    · rw [wccAux, if_pos hv] at hc
      obtain ⟨w, hw, hcw⟩ := ih seen c hc
      exact ⟨w, List.mem_cons_of_mem v hw, hcw⟩
    · rw [wccAux, if_neg hv] at hc
      rcases List.mem_cons.mp hc with hcv | hc2
      · exact ⟨v, List.mem_cons_self v rest, hcv⟩
      · obtain ⟨w, hw, hcw⟩ := ih _ c hc2
        exact ⟨w, List.mem_cons_of_mem v hw, hcw⟩

theorem wccList_ne_nil (es : List Edge) (univ : List ℕ) (h : univ ≠ []) :
    wccList es univ ≠ [] := by
  match univ, h with
  | v :: rest, _ =>
    rw [wccList, wccAux]
    simp

theorem maxByLen_mem : ∀ (l : List (List ℕ)), l ≠ [] → maxByLen l ∈ l := by
  intro l
  induction l with
  | nil => intro h; exact absurd rfl h
  | cons c cs ih =>
    intro _
    rw [maxByLen]
    by_cases hlt : c.length < (maxByLen cs).length
    · rw [if_pos hlt]
      have hcs : cs ≠ [] := by
        intro hnil
        rw [hnil] at hlt
        simp [maxByLen] at hlt
      exact List.mem_cons_of_mem c (ih hcs)
    · rw [if_neg hlt]
      exact List.mem_cons_self c cs

theorem maxByLen_le : ∀ (l : List (List ℕ)), ∀ c ∈ l, c.length ≤ (maxByLen l).length := by
  intro l
  induction l with
  | nil => intro c hc; simp at hc
  | cons d cs ih =>
    intro c hc
    rw [maxByLen]
    rcases List.mem_cons.mp hc with rfl | hc2
    · by_cases hlt : c.length < (maxByLen cs).length
      · rw [if_pos hlt]; exact Nat.le_of_lt hlt
      · rw [if_neg hlt]
    · by_cases hlt : d.length < (maxByLen cs).length
      · rw [if_pos hlt]; exact ih c hc2
      · rw [if_neg hlt]
        exact Nat.le_trans (ih c hc2) (Nat.le_of_not_lt hlt)

theorem maxByLen_first : ∀ (l : List (List ℕ)), l ≠ [] →
    ∃ i : ℕ, ∃ hi : i < l.length, l.get ⟨i, hi⟩ = maxByLen l
      ∧ ∀ j (hj : j < i), (l.get ⟨j, Nat.lt_trans hj hi⟩).length < (maxByLen l).length := by
  intro l
  induction l with
  | nil => intro h; exact absurd rfl h
  | cons c cs ih =>
    intro _
    by_cases hlt : c.length < (maxByLen cs).length
    · have hcs : cs ≠ [] := by
        intro hnil
        rw [hnil] at hlt
        simp [maxByLen] at hlt
      obtain ⟨i, hi, hget, hfirst⟩ := ih hcs
      have hmax : maxByLen (c :: cs) = maxByLen cs := by
        rw [maxByLen, if_pos hlt]
      refine ⟨i + 1, Nat.succ_lt_succ hi, ?_, ?_⟩
      · rw [hmax]
        exact hget
      · intro j hj
        rw [hmax]
        match j, hj with
        | 0, _ => exact hlt
        | j' + 1, hj => exact hfirst j' (Nat.lt_of_succ_lt_succ hj)
    · have hmax : maxByLen (c :: cs) = c := by
        rw [maxByLen, if_neg hlt]
      refine ⟨0, Nat.succ_pos _, ?_, ?_⟩
      · rw [hmax]; rfl
      · intro j hj
        exact absurd hj (Nat.not_lt_zero j)

/-! ### Claim theorems about clipping and metrics -/

/-- C10: node selection (`nodes_gdf.within(tract_polygon)`) is strict
interior containment: a node whose coordinate lies on the region polygon's
boundary is never selected into that region's subgraph. -/
theorem boundary_node_never_selected (g : Graph) (poly : Polygon) (v : Node)
    (hb : OnBoundary (v.px, v.py) poly) : v ∉ selectedNodes g poly := by
  intro hmem
  have h := (List.mem_filter.mp hmem).2
  rw [pointWithin, Bool.and_eq_true, Bool.not_eq_true'] at h
  exact absurd hb (of_decide_eq_false h.2)

theorem corner_on_boundary :
    OnBoundary (nodeOnCorner.px, nodeOnCorner.py) squarePoly := by
  refine ⟨(((0 : ℚ), (0 : ℚ)), ((10 : ℚ), (0 : ℚ))), ?_, ?_⟩
  · simp [polyEdges, squarePoly, List.rotate]
  · refine ⟨by norm_num [nodeOnCorner], ?_, ?_, ?_, ?_⟩ <;>
      norm_num [nodeOnCorner, min_def, max_def]

/-- C10 witness: the corner node lies on the boundary and is not selected. -/
theorem boundary_node_never_selected_witness :
    OnBoundary (nodeOnCorner.px, nodeOnCorner.py) squarePoly
      ∧ nodeOnCorner ∉ selectedNodes ⟨[nodeOnCorner], []⟩ squarePoly :=
  ⟨corner_on_boundary,
    boundary_node_never_selected ⟨[nodeOnCorner], []⟩ squarePoly nodeOnCorner
      corner_on_boundary⟩

/-- C4: each of the four metric fields equals its own guarded computation —
a failure (`none`) in one library call nulls exactly that field, the other
three fields are untouched, and a failed metric is never replaced by a
numeric default. -/
theorem computeMetrics_independent_guards (fns : MetricFns) (ns : List ℕ)
    (es : List Edge) :
    ((computeMetrics fns ns es).global_permeability = fns.geff ns es)
    ∧ ((computeMetrics fns ns es).avg_clustering_coeff = fns.clus ns es)
    ∧ ((computeMetrics fns ns es).degree_assortativity = fns.assort ns es)
    ∧ ((computeMetrics fns ns es).gini_edge_betweenness
        = (fns.ebc ns es).bind gini_coefficient)
    ∧ (fns.geff ns es = none → (computeMetrics fns ns es).global_permeability = none)
    ∧ (fns.clus ns es = none → (computeMetrics fns ns es).avg_clustering_coeff = none)
    ∧ (fns.assort ns es = none → (computeMetrics fns ns es).degree_assortativity = none)
    ∧ (fns.ebc ns es = none → (computeMetrics fns ns es).gini_edge_betweenness = none) := by
  refine ⟨rfl, rfl, rfl, rfl, ?_, ?_, ?_, ?_⟩ <;> intro h <;> simp [computeMetrics, h]

/-- C4 witness: with a failing assortativity call, that field is `none` while
the permeability field still carries its computed value. -/
theorem computeMetrics_independent_guards_witness :
    (computeMetrics fnsAssortFails [] []).degree_assortativity = none
      ∧ (computeMetrics fnsAssortFails [] []).global_permeability = some 1 :=
  ⟨(computeMetrics_independent_guards fnsAssortFails [] []).2.2.2.2.2.2.1 rfl,
    (computeMetrics_independent_guards fnsAssortFails [] []).1⟩

/-- C2: the clip status is `insufficient_nodes` iff fewer than 3 nodes lie
within the region polygon; otherwise `not_viable` iff the subgraph retained
after component reduction has fewer than 3 nodes or zero edges; otherwise
`ok`; and a region whose status is not `ok` yields an error row, with metric
values computed only in the `ok` case. -/
theorem clip_status_spec (fns : MetricFns) (g : Graph) (geoid : ℕ) (poly : Polygon) :
    ((clip g poly).status = ClipStatus.insufficientNodes
        ↔ (selectedIds g poly).length < 3)
    ∧ ((clip g poly).status = ClipStatus.notViable
        ↔ (¬ (selectedIds g poly).length < 3
            ∧ ((clip g poly).nodes.length < 3 ∨ (clip g poly).edges.length = 0)))
    ∧ ((clip g poly).status = ClipStatus.ok
        ↔ (¬ (selectedIds g poly).length < 3
            ∧ ¬ ((clip g poly).nodes.length < 3 ∨ (clip g poly).edges.length = 0)))
    ∧ ((clip g poly).status ≠ ClipStatus.ok →
        processTract fns g geoid poly
          = TractResult.errRow geoid
              (if (clip g poly).status = ClipStatus.insufficientNodes
                then "Not enough nodes" else "Subgraph not viable"))
    ∧ ((clip g poly).status = ClipStatus.ok →
        processTract fns g geoid poly
          = TractResult.metricRow geoid
              (computeMetrics fns (clip g poly).nodes (clip g poly).edges)) := by
  by_cases h1 : (selectedIds g poly).length < 3
  · have hc : clip g poly = ⟨ClipStatus.insufficientNodes, [], []⟩ := by
      simp only [clip, if_pos h1]
    refine ⟨?_, ?_, ?_, ?_, ?_⟩
    · simp [hc, h1]
    · simp [hc, h1]
    · simp [hc, h1]
    · intro _
      simp [processTract, hc]
    · intro hok
      rw [hc] at hok
      simp at hok
  · have hpos : 0 < (selectedIds g poly).length := by omega
    have hc : clip g poly =
        if (clipReducedNodes g poly).length < 3 ∨ (clipReducedEdges g poly).length = 0
        then ⟨ClipStatus.notViable, clipReducedNodes g poly, clipReducedEdges g poly⟩
        else ⟨ClipStatus.ok, clipReducedNodes g poly, clipReducedEdges g poly⟩ := by
      simp only [clip, if_neg h1, if_pos hpos]
    by_cases h2 : (clipReducedNodes g poly).length < 3
        ∨ (clipReducedEdges g poly).length = 0
    · have hc2 : clip g poly
          = ⟨ClipStatus.notViable, clipReducedNodes g poly, clipReducedEdges g poly⟩ := by
        rw [hc, if_pos h2]
      refine ⟨?_, ?_, ?_, ?_, ?_⟩
      · simp [hc2, h1]
      · simp only [hc2, h1, not_false_iff, true_and]
        simp only [List.length_eq_zero] at h2 ⊢
        simp [h2]
      · simp only [hc2]
        constructor
        · intro hok
          simp at hok
        · rintro ⟨-, hnot⟩
          exact absurd h2 hnot
      · intro _
        simp [processTract, hc2]
      · intro hok
        rw [hc2] at hok
        simp at hok
    · have hc2 : clip g poly
          = ⟨ClipStatus.ok, clipReducedNodes g poly, clipReducedEdges g poly⟩ := by
        rw [hc, if_neg h2]
      refine ⟨?_, ?_, ?_, ?_, ?_⟩
      · simp [hc2, h1]
      · simp only [hc2]
        constructor
        · intro hnv
          simp at hnv
        · rintro ⟨-, habs⟩
          exact absurd habs h2
      · simp only [hc2]
        constructor
        · intro _
          exact ⟨h1, h2⟩
        · intro _
          trivial
      · intro hok
        rw [hc2] at hok
        simp at hok
      · intro _
        simp [processTract, hc2]

theorem sel_twoTriangles :
    selectedIds twoTriangleGraph squarePoly = [1, 2, 3, 4, 5, 6] := by
  norm_num [selectedIds, selectedNodes, twoTriangleGraph, pointWithin, raycastOdd,
    polyEdges, squarePoly, List.rotate, edgeCrossesRay, OnBoundary, OnSegment,
    min_def, max_def]

theorem sel_far : selectedIds twoTriangleGraph farPoly = [] := by
  norm_num [selectedIds, selectedNodes, twoTriangleGraph, pointWithin, raycastOdd,
    polyEdges, farPoly, List.rotate, edgeCrossesRay, OnBoundary, OnSegment,
    min_def, max_def]

theorem crn_twoTriangles : clipReducedNodes twoTriangleGraph squarePoly = [1, 2, 3] := by
  unfold clipReducedNodes regionComponents
  rw [sel_twoTriangles]
  decide

theorem cre_twoTriangles :
    clipReducedEdges twoTriangleGraph squarePoly = [⟨1, 2⟩, ⟨2, 3⟩, ⟨3, 1⟩] := by
  unfold clipReducedEdges regionComponents
  rw [sel_twoTriangles]
  decide

theorem clip_twoTriangles : clip twoTriangleGraph squarePoly
    = ⟨ClipStatus.ok, [1, 2, 3], [⟨1, 2⟩, ⟨2, 3⟩, ⟨3, 1⟩]⟩ := by
  unfold clip
  rw [sel_twoTriangles, crn_twoTriangles, cre_twoTriangles]
  decide

/-- C2 witness: on the fixture, a far-away region is `insufficient_nodes` and
the full region is `ok` with an error row only in the former case. -/
theorem clip_status_spec_witness :
    (clip twoTriangleGraph farPoly).status = ClipStatus.insufficientNodes
      ∧ (clip twoTriangleGraph squarePoly).status = ClipStatus.ok :=
  ⟨(clip_status_spec fnsAssortFails twoTriangleGraph 0 farPoly).1.mpr
      (by rw [sel_far]; decide),
    (clip_status_spec fnsAssortFails twoTriangleGraph 0 squarePoly).2.2.1.mpr
      ⟨by rw [sel_twoTriangles]; decide,
        by rw [clip_twoTriangles]; decide⟩⟩

/-- C3: with at least 3 selected nodes, clipping keeps exactly the node set of
the first largest weakly-connected component: the retained node list is a
member of the component list, it is a full connectivity class of the induced
subgraph (ignoring edge direction), no component is longer, and it is the
first component in discovery order attaining the maximal size (so ties break
deterministically by first-discovered order). -/
theorem clip_keeps_first_largest_component (g : Graph) (poly : Polygon)
    (hnd : (g.nodes.map Node.nid).Nodup)
    (h3 : ¬ (selectedIds g poly).length < 3) :
    (clip g poly).nodes = maxByLen (regionComponents g poly)
    ∧ maxByLen (regionComponents g poly) ∈ regionComponents g poly
    ∧ (∀ u ∈ maxByLen (regionComponents g poly), ∀ v : ℕ,
        (v ∈ maxByLen (regionComponents g poly)
          ↔ v ∈ selectedIds g poly
            ∧ Reach (inducedEdges g.edges (selectedIds g poly)) u v))
    ∧ (∀ c ∈ regionComponents g poly,
        c.length ≤ (maxByLen (regionComponents g poly)).length)
    ∧ (∃ i : ℕ, ∃ hi : i < (regionComponents g poly).length,
        (regionComponents g poly).get ⟨i, hi⟩ = maxByLen (regionComponents g poly)
        ∧ ∀ j (hj : j < i),
            ((regionComponents g poly).get ⟨j, Nat.lt_trans hj hi⟩).length
              < (maxByLen (regionComponents g poly)).length) := by
  have hndu : (selectedIds g poly).Nodup := by
    have hsub : List.Sublist (selectedNodes g poly) g.nodes := List.filter_sublist _
    exact hnd.sublist (hsub.map Node.nid)
  have hes : ∀ e ∈ inducedEdges g.edges (selectedIds g poly),
      e.src ∈ selectedIds g poly ∧ e.tgt ∈ selectedIds g poly := by
    intro e he
    exact of_decide_eq_true (List.mem_filter.mp he).2
  have hne : selectedIds g poly ≠ [] := by
    intro h
    rw [h] at h3
    simp at h3
  have hcne : regionComponents g poly ≠ [] := wccList_ne_nil _ _ hne
  have hkc : maxByLen (regionComponents g poly) ∈ regionComponents g poly :=
    maxByLen_mem _ hcne
  obtain ⟨u₀, hu₀, hkeq⟩ :=
    wccAux_mem (inducedEdges g.edges (selectedIds g poly)) (selectedIds g poly)
      (selectedIds g poly) [] _ hkc
  have hpos : 0 < (selectedIds g poly).length := by omega
  have hcnodes : (clip g poly).nodes = clipReducedNodes g poly := by
    simp only [clip, if_neg h3, if_pos hpos]
    by_cases h2 : (clipReducedNodes g poly).length < 3
        ∨ (clipReducedEdges g poly).length = 0
    · rw [if_pos h2]
    · rw [if_neg h2]
  have hfeq : clipReducedNodes g poly = maxByLen (regionComponents g poly) := by
    simp only [clipReducedNodes]
    rw [hkeq]
    obtain ⟨q, hq⟩ := componentOf_is_filter
      (inducedEdges g.edges (selectedIds g poly)) (selectedIds g poly) u₀
    rw [hq]
    apply List.filter_congr
    intro x hx
    apply bool_eq_of_iff
    constructor
    · intro h
      exact (List.mem_filter.mp (of_decide_eq_true h)).2
    · intro h
      exact decide_eq_true (List.mem_filter.mpr ⟨hx, h⟩)
  refine ⟨hcnodes.trans hfeq, hkc, ?_, fun c hc => maxByLen_le _ c hc,
    maxByLen_first _ hcne⟩
  intro u hu v
  rw [hkeq] at hu ⊢
  have hchar := fun w => mem_componentOf_iff
    (inducedEdges g.edges (selectedIds g poly)) (selectedIds g poly) hndu hes hu₀ w
  have huu := (hchar u).mp hu
  constructor
  · intro hv
    have hvv := (hchar v).mp hv
    exact ⟨hvv.1, Relation.ReflTransGen.trans (reach_symm huu.2) hvv.2⟩
  · rintro ⟨hvu, hreach⟩
    exact (hchar v).mpr ⟨hvu, Relation.ReflTransGen.trans huu.2 hreach⟩

/-- C3 witness: on the two-triangle fixture (a size tie) the retained
component is the first-discovered triangle `{1, 2, 3}`. -/
theorem clip_keeps_first_largest_component_witness :
    (clip twoTriangleGraph squarePoly).nodes = [1, 2, 3] := by
  have h3 : ¬ (selectedIds twoTriangleGraph squarePoly).length < 3 := by
    rw [sel_twoTriangles]; decide
  have h := (clip_keeps_first_largest_component twoTriangleGraph squarePoly
    (by decide) h3).1
  rw [h]
  simp only [regionComponents, sel_twoTriangles]
  decide

theorem zscale_pos (xs : List ℝ) : 0 < zscale xs := by
  unfold zscale
  split
  · norm_num
  · rename_i h
    rcases lt_or_eq_of_le (Real.sqrt_nonneg _) with hlt | heq
    · exact hlt
    · exact absurd heq.symm h

/-- C6: the TRVI column is exactly `-Z(income) - Z(physical)`, and TRVI is
strictly decreasing in income at fixed physical sub-index: of two regions
with equal physical sub-index, the lower-income one gets the strictly higher
TRVI. -/
theorem trvi_sign_and_income_monotone (rows : List (ℝ × ℝ)) :
    trviList rows = rows.map (fun r =>
        -zscore (rows.map Prod.fst) r.1 - zscore (rows.map Prod.snd) r.2)
    ∧ ∀ r1 ∈ rows, ∀ r2 ∈ rows, r1.2 = r2.2 → r1.1 < r2.1 →
        trviOf rows r2 < trviOf rows r1 := by
  constructor
  · rfl
  · intro r1 _ r2 _ hph hinc
    have hpos : 0 < zscale (rows.map Prod.fst) := zscale_pos _
    unfold trviOf zscore
    rw [hph]
    have hlt : (r1.1 - meanL (rows.map Prod.fst)) / zscale (rows.map Prod.fst)
        < (r2.1 - meanL (rows.map Prod.fst)) / zscale (rows.map Prod.fst) :=
      (div_lt_div_iff_of_pos_right hpos).mpr (by linarith)
    linarith

/-- C6 witness: two regions with equal physical sub-index and incomes `1 < 2`;
the poorer region has the strictly higher TRVI. -/
theorem trvi_sign_and_income_monotone_witness :
    trviOf [((1 : ℝ), 5), (2, 5)] (2, 5) < trviOf [((1 : ℝ), 5), (2, 5)] (1, 5) :=
  (trvi_sign_and_income_monotone [((1 : ℝ), 5), (2, 5)]).2
    (1, 5) (by simp) (2, 5) (by simp) rfl (by norm_num)

/-! ### Lemmas for the entropy weight method -/

theorem sum_map_affine (l : List ℝ) (c d : ℝ) (f : ℝ → ℝ) :
    (l.map fun x => c + f x * d).sum = l.length * c + (l.map f).sum * d := by
  induction l with
  | nil => simp
  | cons a t ih =>
    simp only [List.map_cons, List.sum_cons, List.length_cons, ih]
    push_cast
    ring

theorem sum_map_neg (l : List ℝ) (f : ℝ → ℝ) :
    (l.map fun x => -(f x)).sum = -((l.map f).sum) := by
  induction l with
  | nil => simp
  | cons a t ih =>
    simp only [List.map_cons, List.sum_cons, ih]
    ring

theorem foldl_min_le (t : List ℝ) :
    ∀ a : ℝ, t.foldl min a ≤ a ∧ ∀ x ∈ t, t.foldl min a ≤ x := by
  induction t with
  | nil =>
    intro a
    exact ⟨le_refl a, by simp⟩
  | cons b t ih =>
    intro a
    have h := ih (min a b)
    refine ⟨h.1.trans (min_le_left a b), ?_⟩
    intro x hx
    rcases List.mem_cons.mp hx with rfl | hxt
    · exact h.1.trans (min_le_right a x)
    · exact h.2 x hxt

theorem le_foldl_max (t : List ℝ) :
    ∀ a : ℝ, a ≤ t.foldl max a ∧ ∀ x ∈ t, x ≤ t.foldl max a := by
  induction t with
  | nil =>
    intro a
    exact ⟨le_refl a, by simp⟩
  | cons b t ih =>
    intro a
    have h := ih (max a b)
    refine ⟨(le_max_left a b).trans h.1, ?_⟩
    intro x hx
    rcases List.mem_cons.mp hx with rfl | hxt
    · exact (le_max_right a x).trans h.1
    · exact h.2 x hxt

theorem listMin_le (xs : List ℝ) : ∀ x ∈ xs, listMin xs ≤ x := by
  match xs with
  | [] => simp
  | a :: t =>
    intro x hx
    rcases List.mem_cons.mp hx with rfl | hxt
    · exact (foldl_min_le t x).1
    · exact (foldl_min_le t a).2 x hxt

theorem le_listMax (xs : List ℝ) : ∀ x ∈ xs, x ≤ listMax xs := by
  match xs with
  | [] => simp
  | a :: t =>
    intro x hx
    rcases List.mem_cons.mp hx with rfl | hxt
    · exact (le_foldl_max t x).1
    · exact (le_foldl_max t a).2 x hxt

theorem foldl_min_mem (t : List ℝ) :
    ∀ a : ℝ, t.foldl min a = a ∨ t.foldl min a ∈ t := by
  induction t with
  | nil => intro a; exact Or.inl rfl
  | cons b t ih =>
    intro a
    simp only [List.foldl_cons]
    rcases ih (min a b) with h | h
    · rcases le_total a b with hab | hab
      · left
        rw [h, min_eq_left hab]
      · right
        rw [h, min_eq_right hab]
        exact List.mem_cons_self b t
    · right
      exact List.mem_cons_of_mem b h

theorem listMin_mem (xs : List ℝ) (h : xs ≠ []) : listMin xs ∈ xs := by
  match xs, h with
  | a :: t, _ =>
    rcases foldl_min_mem t a with h1 | h1
    · rw [listMin, h1]
      exact List.mem_cons_self a t
    · rw [listMin]
      exact List.mem_cons_of_mem a h1

theorem minmaxCol_length (xs : List ℝ) : (minmaxCol xs).length = xs.length := by
  simp [minmaxCol]

theorem minmaxCol_bounds (xs : List ℝ) : ∀ y ∈ minmaxCol xs, 0 ≤ y ∧ y ≤ 1 := by
  intro y hy
  rcases List.mem_map.mp hy with ⟨x, hx, rfl⟩
  have hmin := listMin_le xs x hx
  have hmax := le_listMax xs x hx
  by_cases hz : listMax xs - listMin xs = 0
  · rw [if_pos hz]
    have hxe : x = listMin xs := le_antisymm (by linarith) hmin
    rw [hxe]
    norm_num
  · have hpos : 0 < listMax xs - listMin xs :=
      lt_of_le_of_ne (by linarith) (Ne.symm hz)
    rw [if_neg hz]
    constructor
    · exact div_nonneg (by linarith) hpos.le
    · rw [div_le_one hpos]
      linarith

theorem minmaxCol_zero_mem (xs : List ℝ) (hne : xs ≠ []) :
    (0 : ℝ) ∈ minmaxCol xs := by
  have hm : listMin xs ∈ xs := listMin_mem xs hne
  rw [minmaxCol]
  refine List.mem_map.mpr ⟨listMin xs, hm, ?_⟩
  rw [sub_self, zero_div]

theorem minmaxCol_sum_zero_of_const (xs : List ℝ)
    (hz : listMax xs - listMin xs = 0) : (minmaxCol xs).sum = 0 := by
  apply List.sum_eq_zero
  intro y hy
  rcases List.mem_map.mp hy with ⟨x, hx, rfl⟩
  have hmin := listMin_le xs x hx
  have hmax := le_listMax xs x hx
  have hxe : x = listMin xs := le_antisymm (by linarith) hmin
  rw [if_pos hz, hxe]
  norm_num

theorem colEntropy_of_log_zero (m : ℕ) (xs : List ℝ)
    (hlog : Real.log (m : ℝ) = 0) : colEntropy m xs = 0 := by
  unfold colEntropy
  rw [hlog]
  norm_num

theorem colEntropy_of_sum_zero (m : ℕ) (xs : List ℝ)
    (hs : xs.sum = 0) : colEntropy m xs = 0 := by
  unfold colEntropy
  have : (xs.map fun x => x / xs.sum * Real.log (x / xs.sum)).sum = 0 := by
    apply List.sum_eq_zero
    intro y hy
    rcases List.mem_map.mp hy with ⟨x, _, rfl⟩
    rw [hs, div_zero, zero_mul]
  rw [this, mul_zero]

theorem entropy_term_bound (M : ℝ) (hM : 0 < M) (p : ℝ) (hp : 0 ≤ p) :
    -(p * Real.log p) ≤ 1 / M + p * (Real.log M - 1) := by
  rcases eq_or_lt_of_le hp with heq | hpos
  · rw [← heq]
    have : (0 : ℝ) ≤ 1 / M := by positivity
    simpa using this
  · have h1 : Real.log (1 / (M * p)) ≤ 1 / (M * p) - 1 :=
      Real.log_le_sub_one_of_pos (by positivity)
    have h2 : Real.log (1 / (M * p)) = -(Real.log M + Real.log p) := by
      rw [one_div, Real.log_inv, Real.log_mul (ne_of_gt hM) (ne_of_gt hpos)]
    rw [h2] at h1
    have h3 : p * (-(Real.log M + Real.log p)) ≤ p * (1 / (M * p) - 1) :=
      mul_le_mul_of_nonneg_left h1 hpos.le
    have h4 : p * (1 / (M * p) - 1) = 1 / M - p := by
      field_simp
      ring
    have h5 : p * (-(Real.log M + Real.log p))
        = -(p * Real.log M) - p * Real.log p := by ring
    rw [h5, h4] at h3
    linarith

theorem colEntropy_le_one (m : ℕ) (xs : List ℝ) (hlen : xs.length = m)
    (h : ∀ x ∈ xs, 0 ≤ x) : colEntropy m xs ≤ 1 := by
  by_cases hlog : Real.log (m : ℝ) = 0
  · rw [colEntropy_of_log_zero m xs hlog]
    norm_num
  · by_cases hs0 : xs.sum = 0
    · rw [colEntropy_of_sum_zero m xs hs0]
      norm_num
    · have hsp : 0 < xs.sum := lt_of_le_of_ne (List.sum_nonneg h) (Ne.symm hs0)
      have hm2 : 1 < (m : ℝ) := by
        have hge : 2 ≤ m := by
          by_contra hlt
          push_neg at hlt
          interval_cases m
          · exact hlog (by simp)
          · exact hlog (by simp)
        have : (2 : ℝ) ≤ (m : ℝ) := by exact_mod_cast hge
        linarith
      have hlogpos : 0 < Real.log (m : ℝ) := Real.log_pos hm2
      have hmpos : (0 : ℝ) < (m : ℝ) := by linarith
      have hterm : ∀ x ∈ xs, -(x / xs.sum * Real.log (x / xs.sum))
          ≤ 1 / (m : ℝ) + (x / xs.sum) * (Real.log (m : ℝ) - 1) := by
        intro x hx
        exact entropy_term_bound (m : ℝ) hmpos (x / xs.sum)
          (div_nonneg (h x hx) hsp.le)
      have hsum1 : (xs.map fun x => -(x / xs.sum * Real.log (x / xs.sum))).sum
          ≤ (xs.map fun x => 1 / (m : ℝ) + (x / xs.sum) * (Real.log (m : ℝ) - 1)).sum :=
        List.sum_le_sum hterm
      have hpsum : (xs.map fun x => x / xs.sum).sum = 1 := by
        simp only [div_eq_mul_inv]
        rw [List.sum_map_mul_right]
        simp only [List.map_id, List.map_id_fun, List.map_id']
        exact mul_inv_cancel₀ hs0
      have hrhs : (xs.map fun x => 1 / (m : ℝ)
          + (x / xs.sum) * (Real.log (m : ℝ) - 1)).sum = Real.log (m : ℝ) := by
        rw [sum_map_affine xs (1 / (m : ℝ)) (Real.log (m : ℝ) - 1) (fun x => x / xs.sum),
          hpsum, hlen]
        have hmne : (m : ℝ) ≠ 0 := ne_of_gt hmpos
        field_simp
      have hneg : (xs.map fun x => -(x / xs.sum * Real.log (x / xs.sum))).sum
          = -((xs.map fun x => x / xs.sum * Real.log (x / xs.sum)).sum) :=
        sum_map_neg xs _
      have hS : -((xs.map fun x => x / xs.sum * Real.log (x / xs.sum)).sum)
          ≤ Real.log (m : ℝ) := by
        rw [← hneg]
        exact hsum1.trans (le_of_eq hrhs)
      unfold colEntropy
      calc -(1 / Real.log (m : ℝ))
            * (xs.map fun x => x / xs.sum * Real.log (x / xs.sum)).sum
          = (1 / Real.log (m : ℝ))
            * (-((xs.map fun x => x / xs.sum * Real.log (x / xs.sum)).sum)) := by ring
        _ ≤ (1 / Real.log (m : ℝ)) * Real.log (m : ℝ) :=
            mul_le_mul_of_nonneg_left hS (by positivity)
        _ = 1 := by field_simp

theorem colEntropy_lt_one (m : ℕ) (xs : List ℝ) (hlen : xs.length = m)
    (h : ∀ x ∈ xs, 0 ≤ x) (hm : 1 < (m : ℝ)) (hs : xs.sum ≠ 0)
    (h0 : (0 : ℝ) ∈ xs) : colEntropy m xs < 1 := by
  have hsp : 0 < xs.sum := lt_of_le_of_ne (List.sum_nonneg h) (Ne.symm hs)
  have hlogpos : 0 < Real.log (m : ℝ) := Real.log_pos hm
  have hmpos : (0 : ℝ) < (m : ℝ) := by linarith
  have hterm : ∀ x ∈ xs, -(x / xs.sum * Real.log (x / xs.sum))
      ≤ 1 / (m : ℝ) + (x / xs.sum) * (Real.log (m : ℝ) - 1) := by
    intro x hx
    exact entropy_term_bound (m : ℝ) hmpos (x / xs.sum) (div_nonneg (h x hx) hsp.le)
  have hstrict : ∃ x ∈ xs, -(x / xs.sum * Real.log (x / xs.sum))
      < 1 / (m : ℝ) + (x / xs.sum) * (Real.log (m : ℝ) - 1) := by
    refine ⟨0, h0, ?_⟩
    rw [zero_div, zero_mul, neg_zero, zero_mul, add_zero]
    positivity
  have hsum1 : (xs.map fun x => -(x / xs.sum * Real.log (x / xs.sum))).sum
      < (xs.map fun x => 1 / (m : ℝ) + (x / xs.sum) * (Real.log (m : ℝ) - 1)).sum :=
    List.sum_lt_sum _ _ hterm hstrict
  have hpsum : (xs.map fun x => x / xs.sum).sum = 1 := by
    simp only [div_eq_mul_inv]
    rw [List.sum_map_mul_right]
    simp only [List.map_id, List.map_id_fun, List.map_id']
    exact mul_inv_cancel₀ hs
  have hrhs : (xs.map fun x => 1 / (m : ℝ)
      + (x / xs.sum) * (Real.log (m : ℝ) - 1)).sum = Real.log (m : ℝ) := by
    rw [sum_map_affine xs (1 / (m : ℝ)) (Real.log (m : ℝ) - 1) (fun x => x / xs.sum),
      hpsum, hlen]
    have hmne : (m : ℝ) ≠ 0 := ne_of_gt hmpos
    field_simp
  have hneg : (xs.map fun x => -(x / xs.sum * Real.log (x / xs.sum))).sum
      = -((xs.map fun x => x / xs.sum * Real.log (x / xs.sum)).sum) :=
    sum_map_neg xs _
  have hS : -((xs.map fun x => x / xs.sum * Real.log (x / xs.sum)).sum)
      < Real.log (m : ℝ) := by
    rw [← hneg]
    exact hsum1.trans_le (le_of_eq hrhs)
  unfold colEntropy
  calc -(1 / Real.log (m : ℝ))
        * (xs.map fun x => x / xs.sum * Real.log (x / xs.sum)).sum
      = (1 / Real.log (m : ℝ))
        * (-((xs.map fun x => x / xs.sum * Real.log (x / xs.sum)).sum)) := by ring
    _ < (1 / Real.log (m : ℝ)) * Real.log (m : ℝ) :=
        mul_lt_mul_of_pos_left hS (by positivity)
    _ = 1 := by field_simp

theorem processedGp_length (rows : List MetricRow) :
    (processedGp rows).length = rows.length := by
  simp [processedGp, minmaxCol_length]

theorem processedCc_length (rows : List MetricRow) :
    (processedCc rows).length = rows.length := by
  simp [processedCc, minmaxCol_length]

theorem processedDa_length (rows : List MetricRow) :
    (processedDa rows).length = rows.length := by
  simp [processedDa, minmaxCol_length]

theorem processedGb_length (rows : List MetricRow) :
    (processedGb rows).length = rows.length := by
  simp [processedGb, minmaxCol_length]

theorem processedGp_nonneg (rows : List MetricRow) :
    ∀ x ∈ processedGp rows, 0 ≤ x :=
  fun x hx => (minmaxCol_bounds _ x hx).1

theorem one_sub_minmax_nonneg (xs : List ℝ) :
    ∀ y ∈ (minmaxCol xs).map (fun x => 1 - x), 0 ≤ y := by
  intro y hy
  rcases List.mem_map.mp hy with ⟨x, hx, rfl⟩
  have := (minmaxCol_bounds xs x hx).2
  linarith

theorem processedCc_nonneg (rows : List MetricRow) :
    ∀ x ∈ processedCc rows, 0 ≤ x :=
  one_sub_minmax_nonneg _

theorem processedDa_nonneg (rows : List MetricRow) :
    ∀ x ∈ processedDa rows, 0 ≤ x :=
  one_sub_minmax_nonneg _

theorem processedGb_nonneg (rows : List MetricRow) :
    ∀ x ∈ processedGb rows, 0 ≤ x :=
  one_sub_minmax_nonneg _

theorem ewmD_nonneg (rows : List MetricRow) :
    0 ≤ (ewmD rows).1 ∧ 0 ≤ (ewmD rows).2.1
      ∧ 0 ≤ (ewmD rows).2.2.1 ∧ 0 ≤ (ewmD rows).2.2.2 := by
  refine ⟨?_, ?_, ?_, ?_⟩ <;> unfold ewmD <;> simp only
  · have := colEntropy_le_one rows.length (processedGp rows)
      (processedGp_length rows) (processedGp_nonneg rows)
    linarith
  · have := colEntropy_le_one rows.length (processedCc rows)
      (processedCc_length rows) (processedCc_nonneg rows)
    linarith
  · have := colEntropy_le_one rows.length (processedDa rows)
      (processedDa_length rows) (processedDa_nonneg rows)
    linarith
  · have := colEntropy_le_one rows.length (processedGb rows)
      (processedGb_length rows) (processedGb_nonneg rows)
    linarith

theorem ewmD_sum_pos (rows : List MetricRow) :
    0 < (ewmD rows).1 + (ewmD rows).2.1 + (ewmD rows).2.2.1 + (ewmD rows).2.2.2 := by
  obtain ⟨h1, h2, h3, h4⟩ := ewmD_nonneg rows
  by_cases hlog : Real.log ((rows.length : ℕ) : ℝ) = 0
  · have e1 := colEntropy_of_log_zero rows.length (processedGp rows) hlog
    have hd1 : (ewmD rows).1 = 1 := by
      unfold ewmD
      simp only
      rw [e1]
      norm_num
    rw [hd1] at h1 ⊢
    linarith
  · have hm2 : 1 < ((rows.length : ℕ) : ℝ) := by
      have hge : 2 ≤ rows.length := by
        by_contra hlt
        push_neg at hlt
        set n := rows.length with hn
        interval_cases n
        · exact hlog (by simp)
        · exact hlog (by simp)
      have : (2 : ℝ) ≤ ((rows.length : ℕ) : ℝ) := by exact_mod_cast hge
      linarith
    have hd1 : 0 < (ewmD rows).1 := by
      unfold ewmD
      simp only
      by_cases hs0 : (processedGp rows).sum = 0
      · rw [colEntropy_of_sum_zero rows.length (processedGp rows) hs0]
        norm_num
      · have hne : rows.map MetricRow.gp ≠ [] := by
          intro hnil
          have : rows.length = 0 := by
            have := congrArg List.length hnil
            simpa using this
          rw [this] at hm2
          norm_num at hm2
        have h0 : (0 : ℝ) ∈ processedGp rows := by
          unfold processedGp
          exact minmaxCol_zero_mem _ hne
        have := colEntropy_lt_one rows.length (processedGp rows)
          (processedGp_length rows) (processedGp_nonneg rows) hm2 hs0 h0
        linarith
    linarith

/-- C5: for every collection of metric rows, the four entropy weights are each
non-negative and sum exactly to `1` (in exact real arithmetic). -/
theorem entropyWeights_nonneg_sum_one (rows : List MetricRow) :
    0 ≤ (entropyWeights rows).1 ∧ 0 ≤ (entropyWeights rows).2.1
      ∧ 0 ≤ (entropyWeights rows).2.2.1 ∧ 0 ≤ (entropyWeights rows).2.2.2
      ∧ (entropyWeights rows).1 + (entropyWeights rows).2.1
          + (entropyWeights rows).2.2.1 + (entropyWeights rows).2.2.2 = 1 := by
  have hpos := ewmD_sum_pos rows
  obtain ⟨h1, h2, h3, h4⟩ := ewmD_nonneg rows
  unfold entropyWeights
  refine ⟨div_nonneg h1 hpos.le, div_nonneg h2 hpos.le,
    div_nonneg h3 hpos.le, div_nonneg h4 hpos.le, ?_⟩
  rw [div_add_div_same, div_add_div_same, div_add_div_same]
  exact div_self (ne_of_gt hpos)

theorem trviTable_fst (rows : List UtriRow) :
    (trviTable rows).map Prod.fst = (dropnaClean rows).map UtriRow.geoid := by
  apply List.map_fst_zip
  have h1 : (trviList (trviPairs rows)).length = (trviPairs rows).length := by
    simp [trviList]
  have h2 : (trviPairs rows).length
      = min (incomesClean rows).length (physIndexList rows).length := by
    simp [trviPairs]
  have h3 : (incomesClean rows).length = (dropnaClean rows).length := by
    simp [incomesClean]
  have h4 : (physIndexList rows).length = (dropnaClean rows).length := by
    simp [physIndexList, analysisMetricRows]
  simp only [List.length_map, h1, h2, h3, h4]
  omega

/-- C9: the working table is the complete-case filter of the input — a row
survives iff all four metrics and income are non-null; the metric rows fed to
the entropy weighting are exactly the clean rows; a row with any null is
dropped and (with distinct GEOIDs) receives no TRVI entry; and the TRVI table
is keyed by exactly the clean rows' GEOIDs. -/
theorem complete_case_filtering (rows : List UtriRow)
    (hnd : (rows.map UtriRow.geoid).Nodup) :
    (∀ r, r ∈ dropnaClean rows ↔ (r ∈ rows ∧ ¬ hasNull r))
    ∧ analysisMetricRows rows = (dropnaClean rows).map
        (fun r => ⟨r.gp.getD 0, r.cc.getD 0, r.da.getD 0, r.gb.getD 0⟩)
    ∧ (∀ r ∈ rows, hasNull r →
        r ∉ dropnaClean rows ∧ r.geoid ∉ (trviTable rows).map Prod.fst)
    ∧ (trviTable rows).map Prod.fst = (dropnaClean rows).map UtriRow.geoid := by
  have hmem : ∀ r, r ∈ dropnaClean rows ↔ (r ∈ rows ∧ ¬ hasNull r) := by
    intro r
    unfold dropnaClean hasNull
    rw [List.mem_filter]
    constructor
    · rintro ⟨hr, hb⟩
      simp only [Bool.and_eq_true] at hb
      refine ⟨hr, ?_⟩
      intro hn
      rcases hb with ⟨⟨⟨⟨hgp, hcc⟩, hda⟩, hgb⟩, hinc⟩
      rcases hn with h | h | h | h | h <;>
        simp_all [Option.isSome]
    · rintro ⟨hr, hn⟩
      refine ⟨hr, ?_⟩
      push_neg at hn
      obtain ⟨h1, h2, h3, h4, h5⟩ := hn
      simp only [Bool.and_eq_true]
      refine ⟨⟨⟨⟨?_, ?_⟩, ?_⟩, ?_⟩, ?_⟩ <;>
        simp_all [Option.isSome_iff_ne_none]
  refine ⟨hmem, rfl, ?_, trviTable_fst rows⟩
  intro r hr hn
  have hnot : r ∉ dropnaClean rows := by
    intro hmem2
    exact ((hmem r).mp hmem2).2 hn
  refine ⟨hnot, ?_⟩
  rw [trviTable_fst rows]
  intro hgeo
  rcases List.mem_map.mp hgeo with ⟨r2, hr2, hgeq⟩
  have hr2rows : r2 ∈ rows := ((hmem r2).mp hr2).1
  have : r2 = r := List.inj_on_of_nodup_map hnd hr2rows hr hgeq
  rw [this] at hr2
  exact hnot hr2

/-- C9 witness: with one fully populated row and one row missing only its
income, the income-less row is dropped and gets no TRVI entry. -/
theorem complete_case_filtering_witness :
    (⟨2, none, some 1, some 1, some 1, some 1⟩ : UtriRow)
        ∉ dropnaClean [⟨1, some 3, some 1, some 1, some 1, some 1⟩,
            ⟨2, none, some 1, some 1, some 1, some 1⟩]
      ∧ (2 : ℕ) ∉ (trviTable [⟨1, some 3, some 1, some 1, some 1, some 1⟩,
            ⟨2, none, some 1, some 1, some 1, some 1⟩]).map Prod.fst :=
  (complete_case_filtering
      [⟨1, some 3, some 1, some 1, some 1, some 1⟩,
        ⟨2, none, some 1, some 1, some 1, some 1⟩]
      (by simp)).2.2.1
    ⟨2, none, some 1, some 1, some 1, some 1⟩ (by simp)
    (Or.inr (Or.inr (Or.inr (Or.inr rfl))))

/-- C1 counterexample: with one null region among three, the code computes
nothing for the indicator (`none`), while the claimed exclusion semantics
still produces a statistic over the two remaining regions. -/
theorem moran_null_exclusion_counterexample :
    moranForColumn [some (1 : ℝ), none, some 3] [[0, 1, 0], [1, 0, 1], [0, 1, 0]]
      ≠ moranExcludingNulls [some (1 : ℝ), none, some 3]
          [[0, 1, 0], [1, 0, 1], [0, 1, 0]] := by
  intro h
  simp [moranForColumn, moranExcludingNulls] at h

/-- C1, amended: if any region's value for the chosen indicator is null, the
indicator is skipped entirely — no Moran's I is computed for it; when no
value is null, the statistic is computed over all regions, with no
exclusions. -/
theorem moran_skips_indicator_with_nulls (xs : List (Option ℝ))
    (w : List (List ℝ)) :
    ((∃ x ∈ xs, x = none) → moranForColumn xs w = none)
    ∧ ((∀ x ∈ xs, x ≠ none) →
        moranForColumn xs w = some (moranI (xs.map (fun x => x.getD 0)) w)) := by
  constructor
  · rintro ⟨x, hx, rfl⟩
    unfold moranForColumn
    rw [if_pos]
    rw [List.any_eq_true]
    exact ⟨none, hx, rfl⟩
  · intro h
    unfold moranForColumn
    rw [if_neg]
    rw [List.any_eq_true]
    rintro ⟨x, hx, hxn⟩
    exact h x hx (Option.isNone_iff_eq_none.mp hxn)

/-- C1 witness: a column with a null is skipped; a fully populated column is
computed over all regions. -/
theorem moran_skips_indicator_with_nulls_witness :
    moranForColumn [some (1 : ℝ), none] [[0, 1], [1, 0]] = none
      ∧ moranForColumn [some (1 : ℝ), some 2] [[0, 1], [1, 0]]
          = some (moranI ([some (1 : ℝ), some 2].map (fun x => x.getD 0))
              [[0, 1], [1, 0]]) :=
  ⟨(moran_skips_indicator_with_nulls [some (1 : ℝ), none] [[0, 1], [1, 0]]).1
      ⟨none, by simp, rfl⟩,
    (moran_skips_indicator_with_nulls [some (1 : ℝ), some 2] [[0, 1], [1, 0]]).2
      (by simp)⟩

end UTRI

